import Mathlib

/-!
A verification development for the chess-teacher web application's search
core (`src/app.py`).  The program's pure algorithmic layer — the material
evaluator `evaluate_board`, the alpha-beta `minimax` search and the driver's
move-composition fragment — is embedded shallowly.  The external rules
engine (the `chess` library) is opaque to the program, so it is modelled as
an abstract `Game` structure exposing exactly the capabilities the source
calls: terminal-state queries, side to move, piece counting, legal-move
generation, move application and UCI parsing.

Scores in the source are Python ints mixed with the floats `float('-inf')`
and `float('inf')`; every value that actually occurs is either an integer
or one of the two infinities, so scores are embedded as the type `Score`
below with the corresponding linear order.
-/

/-- A search score: an integer material/mate value or one of the two
infinite sentinels used to initialise the alpha-beta window. -/
inductive Score where
  | negInf : Score
  | fin : Int → Score
  | posInf : Score
deriving DecidableEq, Repr

/-- Boolean comparison of scores, mirroring Python's numeric `<=` on
ints and the IEEE infinities. -/
def Score.ble : Score → Score → Bool
  | .negInf, _ => true
  | .fin _, .negInf => false
  | .fin a, .fin b => decide (a ≤ b)
  | .fin _, .posInf => true
  | .posInf, .posInf => true
  | .posInf, .negInf => false
  | .posInf, .fin _ => false

instance : LinearOrder Score where
  le a b := Score.ble a b = true
  le_refl a := by cases a <;> simp [Score.ble]
  le_trans a b c := by
    cases a <;> cases b <;> cases c <;> simp [Score.ble] <;> omega
  le_antisymm a b := by
    cases a <;> cases b <;> simp [Score.ble] <;> omega
  le_total a b := by
    cases a <;> cases b <;> simp [Score.ble] <;> omega
  decidableLE a b := inferInstanceAs (Decidable (Score.ble a b = true))

instance (a b : Score) : Decidable (a ≤ b) :=
  inferInstanceAs (Decidable (Score.ble a b = true))

instance (a b : Score) : Decidable (a < b) :=
  inferInstanceAs (Decidable (a ≤ b ∧ ¬b ≤ a))

theorem Score.negInf_le (a : Score) : Score.negInf ≤ a := by
  show Score.ble .negInf a = true
  rfl

theorem Score.le_posInf (a : Score) : a ≤ Score.posInf := by
  show Score.ble a .posInf = true
  cases a <;> rfl

theorem Score.negInf_lt_fin (n : Int) : Score.negInf < Score.fin n :=
  lt_of_le_of_ne (Score.negInf_le _) (by simp)

theorem Score.fin_lt_posInf (n : Int) : Score.fin n < Score.posInf :=
  lt_of_le_of_ne (Score.le_posInf _) (by simp)

theorem Score.negInf_lt_posInf : Score.negInf < Score.posInf :=
  lt_of_le_of_ne (Score.negInf_le _) (by simp)

theorem Score.le_negInf_iff (a : Score) : a ≤ Score.negInf ↔ a = Score.negInf :=
  ⟨fun h => le_antisymm h (Score.negInf_le a), fun h => h ▸ le_refl _⟩

theorem Score.posInf_le_iff (a : Score) : Score.posInf ≤ a ↔ a = Score.posInf :=
  ⟨fun h => le_antisymm (Score.le_posInf a) h, fun h => h ▸ le_refl _⟩

example : max Score.negInf (Score.fin 3) = Score.fin 3 := by decide
example : min (Score.fin 2) (Score.fin 5) = Score.fin 2 := by decide
example : (Score.fin (-2)) < Score.fin 1 := by decide

/-! ## The abstract rules engine

`src/app.py` consumes the `chess` library through a fixed set of calls:
`is_checkmate`, `is_stalemate`, `is_game_over`, `turn`, `pieces(kind, color)`
(only its length), `legal_moves`, `push`, `pop`, and `Move.from_uci`.  A
`Game` packages those capabilities.  Colors follow python-chess:
`true` is White (`chess.WHITE == True`), `false` is Black. -/

/-- The six chess piece kinds, as keyed by `PIECE_VALUES` in the source. -/
inductive PieceType where
  | pawn | knight | bishop | rook | queen | king
deriving DecidableEq, Repr

/-- The rules-engine capabilities the program calls.  `push` is given
functionally: applying `push` yields the successor board, and the source's
`pop` is modelled by the undo stack of `MBoard` below. -/
structure Game where
  Board : Type
  Move : Type
  deqMove : DecidableEq Move
  isCheckmate : Board → Bool
  isStalemate : Board → Bool
  isGameOver : Board → Bool
  turn : Board → Bool
  pieceCount : Board → PieceType → Bool → Nat
  legalMoves : Board → List Move
  push : Board → Move → Board
  fromUci : String → Option Move

instance (G : Game) : DecidableEq G.Move := G.deqMove

/-- `PIECE_VALUES` (src/app.py lines 6-13), in the source's insertion
order, which is the order Python iterates the dict in `evaluate_board`. -/
def PIECE_VALUES : List (PieceType × Int) :=
  [(PieceType.pawn, 1), (PieceType.knight, 3), (PieceType.bishop, 3),
   (PieceType.rook, 5), (PieceType.queen, 9), (PieceType.king, 0)]

/-- `evaluate_board` (src/app.py lines 25-40): checkmate sentinel by side
to move, stalemate zero, otherwise a material sum accumulated per kind as
`score += len(white pieces) * value; score -= len(black pieces) * value`. -/
def evaluate_board (G : Game) (state : G.Board) : Int :=
  if G.isCheckmate state then (if G.turn state then -9999 else 9999)
  else if G.isStalemate state then 0
  else PIECE_VALUES.foldl
    (fun score pv =>
      score + (G.pieceCount state pv.1 true : Int) * pv.2
        - (G.pieceCount state pv.1 false : Int) * pv.2) 0

/-- The maximizing `for move in state.legal_moves` loop of `minimax`
(src/app.py lines 52-63), with the child search abstracted as `cE` (it is
handed the current `alpha`; `beta` is fixed for the whole loop).  The
accumulators are the loop variables `alpha`, `max_eval`, `best_move`;
`if beta <= alpha: break` exits after the update. -/
def abMaxLoop {μ : Type _} (cE : μ → Score → Score) (beta : Score) :
    List μ → Score → Score → Option μ → Score × Option μ
  | [], _, max_eval, best_move => (max_eval, best_move)
  | move :: rest, alpha, max_eval, best_move =>
    let eval_score := cE move alpha
    let max_eval' := if max_eval < eval_score then eval_score else max_eval
    let best_move' := if max_eval < eval_score then some move else best_move
    let alpha' := max alpha eval_score
    if beta ≤ alpha' then (max_eval', best_move')
    else abMaxLoop cE beta rest alpha' max_eval' best_move'

/-- The minimizing loop of `minimax` (src/app.py lines 65-76): the mirror
of `abMaxLoop`, with loop variables `beta`, `min_eval`, `best_move`. -/
def abMinLoop {μ : Type _} (cE : μ → Score → Score) (alpha : Score) :
    List μ → Score → Score → Option μ → Score × Option μ
  | [], _, min_eval, best_move => (min_eval, best_move)
  | move :: rest, beta, min_eval, best_move =>
    let eval_score := cE move beta
    let min_eval' := if eval_score < min_eval then eval_score else min_eval
    let best_move' := if eval_score < min_eval then some move else best_move
    let beta' := min beta eval_score
    if beta' ≤ alpha then (min_eval', best_move')
    else abMinLoop cE alpha rest beta' min_eval' best_move'

/-- `minimax` (src/app.py lines 43-76): depth-bounded minimax with
alpha-beta pruning over the abstract rules engine, returning
`(score, best_move)`.  The base case fires when `depth == 0` or the
position is game over; each recursive call flips the player and receives
the caller's current window. -/
def minimax (G : Game) : G.Board → Nat → Score → Score → Bool → Score × Option G.Move
  | state, 0, _, _, _ => (Score.fin (evaluate_board G state), none)
  | state, Nat.succ depth, alpha, beta, maximizing_player =>
    if G.isGameOver state then (Score.fin (evaluate_board G state), none)
    else if maximizing_player then
      abMaxLoop (fun move a => (minimax G (G.push state move) depth a beta false).1)
        beta (G.legalMoves state) alpha Score.negInf none
    else
      abMinLoop (fun move b => (minimax G (G.push state move) depth alpha b true).1)
        alpha (G.legalMoves state) beta Score.posInf none

/-- The spec's reference point for the pruning claim: "an unpruned full
minimax search of the same position at the same depth" — identical leaf
evaluation and move enumeration, but every child is explored and combined
by plain max/min, with no window. -/
def minimax_full (G : Game) : G.Board → Nat → Bool → Score
  | state, 0, _ => Score.fin (evaluate_board G state)
  | state, Nat.succ depth, maximizing =>
    if G.isGameOver state then Score.fin (evaluate_board G state)
    else if maximizing then
      (G.legalMoves state).foldl
        (fun acc move => max acc (minimax_full G (G.push state move) depth false))
        Score.negInf
    else
      (G.legalMoves state).foldl
        (fun acc move => min acc (minimax_full G (G.push state move) depth true))
        Score.posInf

/-! ## The mutating search, as the source actually runs it

`minimax` above is functional; the Python function mutates one shared
`chess.Board` through `push`/`pop`.  `MBoard` models that mutable object:
the current position plus the undo stack that `board.pop()` consumes.
`minimaxS` transcribes the source with this state threaded explicitly, so
that the push/pop pairing of the claim about mutation discipline can be
stated and proved. -/

/-- A mutable rules-engine board: current position and undo stack. -/
structure MBoard (G : Game) where
  cur : G.Board
  stack : List G.Board

/-- `board.push(move)`: advance the position, saving the old one. -/
def pushM (G : Game) (s : MBoard G) (move : G.Move) : MBoard G :=
  ⟨G.push s.cur move, s.cur :: s.stack⟩

/-- `board.pop()`: restore the most recently saved position. -/
def popM (G : Game) (s : MBoard G) : MBoard G :=
  match s.stack with
  | [] => s
  | b :: rest => ⟨b, rest⟩

/-- The maximizing loop with the mutable board threaded: push, recurse on
the pushed state, pop, then update the accumulators exactly as in
`abMaxLoop`. -/
def abMaxLoopS {μ σ : Type _} (cE : μ → σ → Score → Score × σ) (pushF : σ → μ → σ)
    (popF : σ → σ) (beta : Score) :
    List μ → σ → Score → Score → Option μ → (Score × Option μ) × σ
  | [], s, _, max_eval, best_move => ((max_eval, best_move), s)
  | move :: rest, s, alpha, max_eval, best_move =>
    let pushed := pushF s move
    let res := cE move pushed alpha
    let restored := popF res.2
    let max_eval' := if max_eval < res.1 then res.1 else max_eval
    let best_move' := if max_eval < res.1 then some move else best_move
    let alpha' := max alpha res.1
    if beta ≤ alpha' then ((max_eval', best_move'), restored)
    else abMaxLoopS cE pushF popF beta rest restored alpha' max_eval' best_move'

/-- The minimizing loop with the mutable board threaded. -/
def abMinLoopS {μ σ : Type _} (cE : μ → σ → Score → Score × σ) (pushF : σ → μ → σ)
    (popF : σ → σ) (alpha : Score) :
    List μ → σ → Score → Score → Option μ → (Score × Option μ) × σ
  | [], s, _, min_eval, best_move => ((min_eval, best_move), s)
  | move :: rest, s, beta, min_eval, best_move =>
    let pushed := pushF s move
    let res := cE move pushed beta
    let restored := popF res.2
    let min_eval' := if res.1 < min_eval then res.1 else min_eval
    let best_move' := if res.1 < min_eval then some move else best_move
    let beta' := min beta res.1
    if beta' ≤ alpha then ((min_eval', best_move'), restored)
    else abMinLoopS cE pushF popF alpha rest restored beta' min_eval' best_move'

/-- `minimax` with the shared mutable board made explicit: the result pair
together with the board object as the function leaves it.  `evaluate_board`
touches the board only through the read-only queries of `Game`, so the
leaf cases return the state unchanged by construction. -/
def minimaxS (G : Game) : MBoard G → Nat → Score → Score → Bool → (Score × Option G.Move) × MBoard G
  | s, 0, _, _, _ => ((Score.fin (evaluate_board G s.cur), none), s)
  | s, Nat.succ depth, alpha, beta, maximizing_player =>
    if G.isGameOver s.cur then ((Score.fin (evaluate_board G s.cur), none), s)
    else if maximizing_player then
      abMaxLoopS
        (fun _ t a =>
          let q := minimaxS G t depth a beta false
          (q.1.1, q.2))
        (pushM G) (popM G) beta (G.legalMoves s.cur) s alpha Score.negInf none
    else
      abMinLoopS
        (fun _ t b =>
          let q := minimaxS G t depth alpha b true
          (q.1.1, q.2))
        (pushM G) (popM G) alpha (G.legalMoves s.cur) s beta Score.posInf none

/-! ## The driver's second-click handler -/

/-- The move-composition fragment of `run_app` (src/app.py lines 146-171):
compose the UCI string from the two clicked squares, parse it, retry once
with a queen-promotion suffix when the plain move is illegal (the
`try/except pass` keeps the plain move if the suffixed parse fails), then
either push the move or report an illegal move leaving the board alone.
`none` models an uncaught parse failure on the first `from_uci`;
`some (board, none)` is the illegal-move report with the board untouched;
`some (board', some m)` is a performed move. -/
def secondClick (G : Game) (board : G.Board) (selected clicked : String) :
    Option (G.Board × Option G.Move) :=
  match G.fromUci (selected ++ clicked) with
  | none => none
  | some move0 =>
    let move :=
      if move0 ∈ G.legalMoves board then move0
      else
        match G.fromUci (selected ++ clicked ++ "q") with
        | some mq => mq
        | none => move0
    if move ∈ G.legalMoves board then some (G.push board move, some move)
    else some (board, none)

/-! ## The collaborator contract

Facts about positions that the `chess` rules engine guarantees and the
spec assumes of its external rules engine: checkmate and stalemate are
mutually exclusive (stalemate requires not being in check), and a position
with no legal moves is game over (it is checkmate or stalemate). -/

/-- Rules-engine guarantees used by the program. -/
structure RulesContract (G : Game) : Prop where
  not_both : ∀ b, ¬(G.isCheckmate b = true ∧ G.isStalemate b = true)
  no_moves_over : ∀ b, G.legalMoves b = [] → G.isGameOver b = true

/-! ## A small concrete rules engine for evaluating the development

`TB` is a tiny `Game` satisfying `RulesContract`, used to instantiate
theorems at concrete inputs.  Board 0 is a live position with two moves
leading to boards 1 and 2; board 3 is a checkmate with White to move;
board 4 is a stalemate; board 1 holds two White pawns against one Black
pawn. -/

/-- A concrete six-board game for evaluating the definitions. -/
abbrev TB : Game :=
  { Board := Fin 8
    Move := Nat
    deqMove := inferInstance
    isCheckmate := fun b => b.val == 3
    isStalemate := fun b => b.val == 4
    isGameOver := fun b => b.val == 3 || b.val == 4
    turn := fun _ => true
    pieceCount := fun b k c =>
      if b.val == 1 && k == PieceType.pawn then (if c then 2 else 1) else 0
    legalMoves := fun b => if b.val == 3 || b.val == 4 then [] else [0, 1]
    push := fun b m => if b.val == 0 then (if m == 0 then 1 else 2) else 5
    fromUci := fun s =>
      if s == "a7a8" then some 70 else if s == "a7a8q" then some 71 else none }

/-- `TB` satisfies the rules-engine contract. -/
theorem TB_contract : RulesContract TB :=
  ⟨by decide, by decide⟩

example : evaluate_board TB 1 = 1 := by decide
example : evaluate_board TB 3 = -9999 := by decide
example : evaluate_board TB 4 = 0 := by decide
example : minimax TB 0 1 Score.negInf Score.posInf true = (Score.fin 1, some 0) := by decide
example : minimax TB 0 2 Score.negInf Score.posInf true = (Score.fin 0, some 0) := by decide
example : minimax_full TB 0 2 true = Score.fin 0 := by decide
example : minimaxS TB ⟨0, []⟩ 2 Score.negInf Score.posInf true
    = ((Score.fin 0, some 0), ⟨0, []⟩) := rfl

/-! ## Material formula from the spec's words -/

/-- The value table as the spec states it: pawn=1, knight=3, bishop=3,
rook=5, queen=9, king=0. -/
def pieceValue : PieceType → Int
  | .pawn => 1
  | .knight => 3
  | .bishop => 3
  | .rook => 5
  | .queen => 9
  | .king => 0

/-- The spec's material formula: the sum over all piece kinds of
(White count − Black count) × kind value. -/
def materialSpec (G : Game) (b : G.Board) : Int :=
  ([PieceType.pawn, PieceType.knight, PieceType.bishop, PieceType.rook,
    PieceType.queen, PieceType.king].map
    (fun k => ((G.pieceCount b k true : Int) - (G.pieceCount b k false : Int))
      * pieceValue k)).sum

/-! ## Equivalence of the threaded search with the functional one -/

theorem popM_pushM (G : Game) (s : MBoard G) (m : G.Move) :
    popM G (pushM G s m) = s := rfl

theorem abMaxLoopS_eq {μ σ : Type _} (cE : μ → σ → Score → Score × σ)
    (cP : μ → Score → Score) (pushF : σ → μ → σ) (popF : σ → σ) (beta : Score) (s : σ)
    (hpop : ∀ m, popF (pushF s m) = s)
    (hc : ∀ m a, cE m (pushF s m) a = (cP m a, pushF s m)) :
    ∀ (l : List μ) (a me : Score) (bm : Option μ),
      abMaxLoopS cE pushF popF beta l s a me bm = (abMaxLoop cP beta l a me bm, s) := by
  intro l
  induction l with
  | nil => intro a me bm; rfl
  | cons m rest ih =>
    intro a me bm
    simp only [abMaxLoopS, abMaxLoop, hc, hpop]
    split
    · rfl
    · exact ih _ _ _

theorem abMinLoopS_eq {μ σ : Type _} (cE : μ → σ → Score → Score × σ)
    (cP : μ → Score → Score) (pushF : σ → μ → σ) (popF : σ → σ) (alpha : Score) (s : σ)
    (hpop : ∀ m, popF (pushF s m) = s)
    (hc : ∀ m b, cE m (pushF s m) b = (cP m b, pushF s m)) :
    ∀ (l : List μ) (b me : Score) (bm : Option μ),
      abMinLoopS cE pushF popF alpha l s b me bm = (abMinLoop cP alpha l b me bm, s) := by
  intro l
  induction l with
  | nil => intro b me bm; rfl
  | cons m rest ih =>
    intro b me bm
    simp only [abMinLoopS, abMinLoop, hc, hpop]
    split
    · rfl
    · exact ih _ _ _

/-- The threaded transcription computes the functional `minimax` on the
current position and hands the mutable board back exactly as received:
each `push` is undone by the matching `pop`. -/
theorem minimaxS_eq (G : Game) :
    ∀ (d : Nat) (s : MBoard G) (alpha beta : Score) (maxim : Bool),
      minimaxS G s d alpha beta maxim = (minimax G s.cur d alpha beta maxim, s) := by
  intro d
  induction d with
  | zero => intro s alpha beta maxim; rfl
  | succ d ih =>
    intro s alpha beta maxim
    by_cases hg : G.isGameOver s.cur
    · simp [minimaxS, minimax, hg]
    · cases maxim with
      | true =>
        simp only [minimaxS, minimax, hg, if_false, Bool.false_eq_true, if_true]
        exact abMaxLoopS_eq _ _ _ _ _ s (fun m => popM_pushM G s m)
          (fun m a => by simp [ih, pushM]) _ _ _ _
      | false =>
        simp only [minimaxS, minimax, hg, if_false, Bool.false_eq_true, if_true]
        exact abMinLoopS_eq _ _ _ _ _ s (fun m => popM_pushM G s m)
          (fun m b => by simp [ih, pushM]) _ _ _ _

/-! ## Claims about the evaluator and the leaf case -/

theorem minimax_base_case (G : Game) (b : G.Board) (d : Nat) (alpha beta : Score)
    (maxim : Bool) (h : d = 0 ∨ G.isGameOver b = true) :
    minimax G b d alpha beta maxim = (Score.fin (evaluate_board G b), none) := by
  rcases h with h | h
  · subst h; rfl
  · cases d with
    | zero => rfl
    | succ d => simp [minimax, h]

/-- Claim C2: for every position, alpha, beta and maximizing flag, if the depth
is 0 or the position is game over, `minimax` returns exactly
`(evaluate_board(position), none)` — no move is produced at a leaf. -/
theorem minimax_leaf (G : Game) (b : G.Board) (d : Nat) (alpha beta : Score)
    (maxim : Bool) (h : d = 0 ∨ G.isGameOver b = true) :
    minimax G b d alpha beta maxim = (Score.fin (evaluate_board G b), none) :=
  minimax_base_case G b d alpha beta maxim h

theorem minimax_leaf_witness :
    minimax TB 3 5 Score.negInf Score.posInf true
      = (Score.fin (evaluate_board TB 3), none) :=
  minimax_leaf TB 3 5 Score.negInf Score.posInf true (Or.inr (by decide))

/-- Claim C3: on a checkmate `evaluate_board` returns -9999 when White (the
positive side) is to move and 9999 otherwise; on a stalemate it returns 0.
The stalemate branch uses the rules-engine guarantee that a stalemate is
never simultaneously a checkmate. -/
theorem evaluate_board_terminal (G : Game) (hC : RulesContract G) (b : G.Board) :
    (G.isCheckmate b = true →
      evaluate_board G b = (if G.turn b then -9999 else 9999)) ∧
    (G.isStalemate b = true → evaluate_board G b = 0) := by
  constructor
  · intro h
    simp [evaluate_board, h]
  · intro h
    have hc : G.isCheckmate b = false := by
      cases hcm : G.isCheckmate b
      · rfl
      · exact absurd ⟨hcm, h⟩ (hC.not_both b)
    simp [evaluate_board, hc, h]

theorem evaluate_board_terminal_witness :
    (TB.isCheckmate 3 = true →
      evaluate_board TB 3 = (if TB.turn 3 then -9999 else 9999)) ∧
    (TB.isStalemate 4 = true → evaluate_board TB 4 = 0) :=
  ⟨(evaluate_board_terminal TB TB_contract 3).1,
   (evaluate_board_terminal TB TB_contract 4).2⟩

/-- Claim C4: on a position that is neither checkmate nor stalemate,
`evaluate_board` equals the spec's material sum: over all piece kinds,
(White count − Black count) × value, with pawn=1, knight=3, bishop=3,
rook=5, queen=9, king=0. -/
theorem evaluate_board_material (G : Game) (b : G.Board)
    (h1 : G.isCheckmate b = false) (h2 : G.isStalemate b = false) :
    evaluate_board G b = materialSpec G b := by
  simp [evaluate_board, materialSpec, PIECE_VALUES, pieceValue, h1, h2]
  ring

theorem evaluate_board_material_witness :
    evaluate_board TB 1 = materialSpec TB 1 :=
  evaluate_board_material TB 1 (by decide) (by decide)

/-! ## Claims about the mutation discipline -/

/-- Claim C5: a `minimax` call on the shared mutable board returns the board
observably identical to the board at the moment of the call — every push
is undone by the paired pop — and its result is the functional search of
the current position.  `evaluate_board` consumes the board only through
the read-only queries of `Game`, so it can mutate nothing. -/
theorem minimax_restores_board (G : Game) (s : MBoard G) (d : Nat)
    (alpha beta : Score) (maxim : Bool) :
    (minimaxS G s d alpha beta maxim).2 = s ∧
    (minimaxS G s d alpha beta maxim).1 = minimax G s.cur d alpha beta maxim := by
  simp [minimaxS_eq]

/-- Claim C10: the search is deterministic — two invocations on observably
identical boards (same current position, regardless of accumulated
history) with equal depth, window and maximizing flag return identical
(score, best move) pairs; nothing random enters the selection. -/
theorem minimax_deterministic (G : Game) (d : Nat) (s t : MBoard G)
    (alpha beta : Score) (maxim : Bool) (h : s.cur = t.cur) :
    (minimaxS G s d alpha beta maxim).1 = (minimaxS G t d alpha beta maxim).1 := by
  simp [minimaxS_eq, h]

theorem minimax_deterministic_witness :
    (minimaxS TB ⟨0, []⟩ 2 Score.negInf Score.posInf true).1
      = (minimaxS TB ⟨0, [1, 3]⟩ 2 Score.negInf Score.posInf true).1 :=
  minimax_deterministic TB 2 ⟨0, []⟩ ⟨0, [1, 3]⟩ Score.negInf Score.posInf true rfl

/-! ## Claim about the driver's illegal-move handling -/

/-- Claim C9: a player move composed from the selected and clicked squares that
is not legal is retried exactly once with a queen-promotion suffix; if the
retried move is legal it is pushed, and if it is also illegal the board is
left untouched and the illegal-move failure is reported. -/
theorem secondClick_promotion_retry (G : Game) (b : G.Board)
    (selected clicked : String) (m0 mq : G.Move)
    (h0 : G.fromUci (selected ++ clicked) = some m0)
    (h1 : m0 ∉ G.legalMoves b)
    (hq : G.fromUci (selected ++ clicked ++ "q") = some mq) :
    (mq ∉ G.legalMoves b → secondClick G b selected clicked = some (b, none)) ∧
    (mq ∈ G.legalMoves b →
      secondClick G b selected clicked = some (G.push b mq, some mq)) := by
  constructor
  · intro h2
    simp [secondClick, h0, h1, hq, h2]
  · intro h2
    simp [secondClick, h0, h1, hq, h2]

theorem secondClick_promotion_retry_witness :
    secondClick TB 0 ("a7") ("a8") = some (0, none) :=
  (secondClick_promotion_retry TB 0 ("a7") ("a8") 70 71 (by decide)
    (by decide) (by decide)).1 (by decide)

/-! ## Behaviour on positions with zero legal moves (C6) -/

/-- Claim C6 as amended: on a position with zero legal moves and positive
depth, the game-over check in the base case fires first whenever the rules
engine reports the position terminal (which, in chess, is every zero-legal-move position),
returning `(evaluate_board, none)`; only on a non-terminal zero-move
position would the loop body never execute and the initial extremal
sentinel be returned with no move. -/
theorem minimax_no_legal_moves (G : Game) (b : G.Board) (d : Nat)
    (alpha beta : Score) (maxim : Bool) (h : G.legalMoves b = []) :
    minimax G b (d + 1) alpha beta maxim =
      if G.isGameOver b then (Score.fin (evaluate_board G b), none)
      else ((if maxim then Score.negInf else Score.posInf), none) := by
  by_cases hg : G.isGameOver b
  · simp [minimax, hg]
  · cases maxim <;> simp [minimax, hg, h, abMaxLoop, abMinLoop]

theorem minimax_no_legal_moves_witness :
    minimax TB 3 (0 + 1) Score.negInf Score.posInf true =
      if TB.isGameOver 3 then (Score.fin (evaluate_board TB 3), none)
      else ((if true then Score.negInf else Score.posInf), none) :=
  minimax_no_legal_moves TB 3 0 Score.negInf Score.posInf true (by decide)

/-- Counterexample to claim C6 as stated: board 3 of `TB` has zero legal moves
(it is a checkmate, hence game over, as the rules engine guarantees for
every zero-legal-move chess position), yet `minimax` at depth 1 on the
maximizing branch returns `(evaluate_board, none) = (-9999, none)`, not
the initial extremal sentinel `-∞`. -/
theorem minimax_no_legal_moves_counterexample :
    TB.legalMoves 3 = [] ∧ 0 < 1 ∧
    minimax TB 3 1 Score.negInf Score.posInf true = (Score.fin (-9999), none) ∧
    (Score.fin (-9999), (none : Option TB.Move)) ≠ (Score.negInf, none) := by
  refine ⟨by decide, by decide, by decide, by decide⟩

/-! ## The best-move update rule and its tie-break (C7) -/

/-- Claim C7: in each loop iteration of `minimax` the best move is updated only
on strict improvement.  On the maximizing branch, a child score less than
or equal to the current best (ties included) leaves both the best score
and the recorded move unchanged, so an earlier move is never displaced by
an equal-scoring later one; the move is replaced exactly when the child
score strictly exceeds the best.  The minimizing branch is the mirror with
strictly-less. -/
theorem minimax_tiebreak_update (G : Game) (state : G.Board) (d : Nat)
    (alpha beta max_eval min_eval : Score) (bm : Option G.Move) (m : G.Move)
    (rest : List G.Move) :
    ((minimax G (G.push state m) d alpha beta false).1 ≤ max_eval →
      abMaxLoop (fun move a => (minimax G (G.push state move) d a beta false).1)
          beta (m :: rest) alpha max_eval bm =
        (if beta ≤ max alpha (minimax G (G.push state m) d alpha beta false).1
          then (max_eval, bm)
          else abMaxLoop (fun move a => (minimax G (G.push state move) d a beta false).1)
            beta rest (max alpha (minimax G (G.push state m) d alpha beta false).1)
            max_eval bm)) ∧
    (max_eval < (minimax G (G.push state m) d alpha beta false).1 →
      abMaxLoop (fun move a => (minimax G (G.push state move) d a beta false).1)
          beta (m :: rest) alpha max_eval bm =
        (if beta ≤ max alpha (minimax G (G.push state m) d alpha beta false).1
          then ((minimax G (G.push state m) d alpha beta false).1, some m)
          else abMaxLoop (fun move a => (minimax G (G.push state move) d a beta false).1)
            beta rest (max alpha (minimax G (G.push state m) d alpha beta false).1)
            (minimax G (G.push state m) d alpha beta false).1 (some m))) ∧
    (min_eval ≤ (minimax G (G.push state m) d alpha beta true).1 →
      abMinLoop (fun move b => (minimax G (G.push state move) d alpha b true).1)
          alpha (m :: rest) beta min_eval bm =
        (if min beta (minimax G (G.push state m) d alpha beta true).1 ≤ alpha
          then (min_eval, bm)
          else abMinLoop (fun move b => (minimax G (G.push state move) d alpha b true).1)
            alpha rest (min beta (minimax G (G.push state m) d alpha beta true).1)
            min_eval bm)) ∧
    ((minimax G (G.push state m) d alpha beta true).1 < min_eval →
      abMinLoop (fun move b => (minimax G (G.push state move) d alpha b true).1)
          alpha (m :: rest) beta min_eval bm =
        (if min beta (minimax G (G.push state m) d alpha beta true).1 ≤ alpha
          then ((minimax G (G.push state m) d alpha beta true).1, some m)
          else abMinLoop (fun move b => (minimax G (G.push state move) d alpha b true).1)
            alpha rest (min beta (minimax G (G.push state m) d alpha beta true).1)
            (minimax G (G.push state m) d alpha beta true).1 (some m))) := by
  refine ⟨fun h => ?_, fun h => ?_, fun h => ?_, fun h => ?_⟩
  · simp only [abMaxLoop, if_neg (not_lt.mpr h)]
  · simp only [abMaxLoop, if_pos h]
  · simp only [abMinLoop, if_neg (not_lt.mpr h)]
  · simp only [abMinLoop, if_pos h]

theorem minimax_tiebreak_update_witness :
    abMaxLoop (fun move a => (minimax TB (TB.push 0 move) 0 a Score.posInf false).1)
        Score.posInf [0] Score.negInf (Score.fin 1) (some 99) =
      (Score.fin 1, some 99) :=
  ((minimax_tiebreak_update TB 0 0 Score.negInf Score.posInf (Score.fin 1)
    (Score.fin 1) (some 99) 0 []).1 (by decide)).trans (by decide)

/-! ## No-move results exactly at terminal positions (C8) -/

theorem abMaxLoop_fst_cases {μ : Type _} (cE : μ → Score → Score) (beta : Score)
    (hfin : ∀ m a, ∃ n, cE m a = Score.fin n) :
    ∀ (l : List μ) (a best : Score) (bm : Option μ),
      (abMaxLoop cE beta l a best bm).1 = best ∨
        ∃ n, (abMaxLoop cE beta l a best bm).1 = Score.fin n := by
  intro l
  induction l with
  | nil => intro a best bm; exact Or.inl rfl
  | cons m rest ih =>
    intro a best bm
    obtain ⟨n, hn⟩ := hfin m a
    simp only [abMaxLoop, hn]
    split
    · by_cases hb : best < Score.fin n
      · exact Or.inr ⟨n, by simp [hb]⟩
      · exact Or.inl (by simp [hb])
    · rcases ih (max a (Score.fin n)) (if best < Score.fin n then Score.fin n else best)
        (if best < Score.fin n then some m else bm) with h | h
      · by_cases hb : best < Score.fin n
        · right; exact ⟨n, by rw [h]; simp [hb]⟩
        · left; rw [h]; simp [hb]
      · exact Or.inr h

theorem abMinLoop_fst_cases {μ : Type _} (cE : μ → Score → Score) (alpha : Score)
    (hfin : ∀ m b, ∃ n, cE m b = Score.fin n) :
    ∀ (l : List μ) (b best : Score) (bm : Option μ),
      (abMinLoop cE alpha l b best bm).1 = best ∨
        ∃ n, (abMinLoop cE alpha l b best bm).1 = Score.fin n := by
  intro l
  induction l with
  | nil => intro b best bm; exact Or.inl rfl
  | cons m rest ih =>
    intro b best bm
    obtain ⟨n, hn⟩ := hfin m b
    simp only [abMinLoop, hn]
    split
    · by_cases hb : Score.fin n < best
      · exact Or.inr ⟨n, by simp [hb]⟩
      · exact Or.inl (by simp [hb])
    · rcases ih (min b (Score.fin n)) (if Score.fin n < best then Score.fin n else best)
        (if Score.fin n < best then some m else bm) with h | h
      · by_cases hb : Score.fin n < best
        · right; exact ⟨n, by rw [h]; simp [hb]⟩
        · left; rw [h]; simp [hb]
      · exact Or.inr h

theorem abMaxLoop_snd_cases {μ : Type _} (cE : μ → Score → Score) (beta : Score) :
    ∀ (l : List μ) (a best : Score) (bm : Option μ),
      (abMaxLoop cE beta l a best bm).2 = bm ∨
        ∃ m, m ∈ l ∧ (abMaxLoop cE beta l a best bm).2 = some m := by
  intro l
  induction l with
  | nil => intro a best bm; exact Or.inl rfl
  | cons m rest ih =>
    intro a best bm
    simp only [abMaxLoop]
    split
    · by_cases hb : best < cE m a
      · exact Or.inr ⟨m, List.mem_cons_self m rest, by simp [hb]⟩
      · exact Or.inl (by simp [hb])
    · rcases ih (max a (cE m a)) (if best < cE m a then cE m a else best)
        (if best < cE m a then some m else bm) with h | ⟨m', hm', h⟩
      · rw [h]
        by_cases hb : best < cE m a
        · exact Or.inr ⟨m, List.mem_cons_self m rest, by simp [hb]⟩
        · exact Or.inl (by simp [hb])
      · exact Or.inr ⟨m', List.mem_cons_of_mem m hm', h⟩

theorem abMinLoop_snd_cases {μ : Type _} (cE : μ → Score → Score) (alpha : Score) :
    ∀ (l : List μ) (b best : Score) (bm : Option μ),
      (abMinLoop cE alpha l b best bm).2 = bm ∨
        ∃ m, m ∈ l ∧ (abMinLoop cE alpha l b best bm).2 = some m := by
  intro l
  induction l with
  | nil => intro b best bm; exact Or.inl rfl
  | cons m rest ih =>
    intro b best bm
    simp only [abMinLoop]
    split
    · by_cases hb : cE m b < best
      · exact Or.inr ⟨m, List.mem_cons_self m rest, by simp [hb]⟩
      · exact Or.inl (by simp [hb])
    · rcases ih (min b (cE m b)) (if cE m b < best then cE m b else best)
        (if cE m b < best then some m else bm) with h | ⟨m', hm', h⟩
      · rw [h]
        by_cases hb : cE m b < best
        · exact Or.inr ⟨m, List.mem_cons_self m rest, by simp [hb]⟩
        · exact Or.inl (by simp [hb])
      · exact Or.inr ⟨m', List.mem_cons_of_mem m hm', h⟩

/-- Under the rules-engine contract every `minimax` value is a finite
score: the loop is entered only on positions with at least one legal move,
and its first iteration always replaces the infinite initialisation. -/
theorem minimax_fin (G : Game)
    (hc : ∀ b, G.legalMoves b = [] → G.isGameOver b = true) :
    ∀ (d : Nat) (b : G.Board) (alpha beta : Score) (maxim : Bool),
      ∃ n, (minimax G b d alpha beta maxim).1 = Score.fin n := by
  intro d
  induction d with
  | zero => intro b alpha beta maxim; exact ⟨evaluate_board G b, rfl⟩
  | succ d ih =>
    intro b alpha beta maxim
    by_cases hg : G.isGameOver b
    · exact ⟨evaluate_board G b, by simp [minimax, hg]⟩
    · obtain ⟨m, rest, hml⟩ : ∃ m rest, G.legalMoves b = m :: rest := by
        cases hml : G.legalMoves b with
        | nil => exact absurd (hc b hml) hg
        | cons x xs => exact ⟨x, xs, rfl⟩
      cases maxim with
      | true =>
        simp only [minimax, hg, Bool.false_eq_true, if_false, if_true, hml]
        obtain ⟨n, hn⟩ := ih (G.push b m) alpha beta false
        simp only [abMaxLoop, hn, if_pos (Score.negInf_lt_fin n)]
        split
        · exact ⟨n, rfl⟩
        · rcases abMaxLoop_fst_cases _ beta
            (fun mv a => ih (G.push b mv) a beta false) rest
            (max alpha (Score.fin n)) (Score.fin n) (some m) with h | h
          · exact ⟨n, h⟩
          · exact h
      | false =>
        simp only [minimax, hg, Bool.false_eq_true, if_false, if_true, hml]
        obtain ⟨n, hn⟩ := ih (G.push b m) alpha beta true
        simp only [abMinLoop, hn, if_pos (Score.fin_lt_posInf n)]
        split
        · exact ⟨n, rfl⟩
        · rcases abMinLoop_fst_cases _ alpha
            (fun mv bb => ih (G.push b mv) alpha bb true) rest
            (min beta (Score.fin n)) (Score.fin n) (some m) with h | h
          · exact ⟨n, h⟩
          · exact h

/-- Under the rules-engine contract, `minimax` at positive depth on a
non-terminal position always returns some legal move: the first loop
iteration records a move before any cutoff can occur. -/
theorem minimax_move (G : Game)
    (hc : ∀ b, G.legalMoves b = [] → G.isGameOver b = true)
    (d : Nat) (b : G.Board) (alpha beta : Score) (maxim : Bool)
    (hg : G.isGameOver b = false) :
    ∃ m, m ∈ G.legalMoves b ∧ (minimax G b (d + 1) alpha beta maxim).2 = some m := by
  obtain ⟨m, rest, hml⟩ : ∃ m rest, G.legalMoves b = m :: rest := by
    cases hml : G.legalMoves b with
    | nil => rw [hc b hml] at hg; cases hg
    | cons x xs => exact ⟨x, xs, rfl⟩
  have hgr : ¬G.isGameOver b = true := by rw [hg]; exact Bool.false_ne_true
  cases maxim with
  | true =>
    simp only [minimax, hgr, Bool.false_eq_true, if_false, if_true, hml]
    obtain ⟨n, hn⟩ := minimax_fin G hc d (G.push b m) alpha beta false
    simp only [abMaxLoop, hn, if_pos (Score.negInf_lt_fin n)]
    split
    · exact ⟨m, List.mem_cons_self m rest, rfl⟩
    · rcases abMaxLoop_snd_cases _ beta rest
        (max alpha (Score.fin n)) (Score.fin n) (some m) with h | ⟨m', hm', h⟩
      · exact ⟨m, List.mem_cons_self m rest, h⟩
      · exact ⟨m', List.mem_cons_of_mem m hm', h⟩
  | false =>
    simp only [minimax, hgr, Bool.false_eq_true, if_false, if_true, hml]
    obtain ⟨n, hn⟩ := minimax_fin G hc d (G.push b m) alpha beta true
    simp only [abMinLoop, hn, if_pos (Score.fin_lt_posInf n)]
    split
    · exact ⟨m, List.mem_cons_self m rest, rfl⟩
    · rcases abMinLoop_snd_cases _ alpha rest
        (min beta (Score.fin n)) (Score.fin n) (some m) with h | ⟨m', hm', h⟩
      · exact ⟨m, List.mem_cons_self m rest, h⟩
      · exact ⟨m', List.mem_cons_of_mem m hm', h⟩

/-- Claim C8: at depth ≥ 1 with the full window, `minimax` returns no move if
and only if the position is game over; on every non-terminal position it
returns some move drawn from the legal-move list. -/
theorem minimax_none_iff_gameover (G : Game) (hC : RulesContract G) (b : G.Board)
    (d : Nat) (hd : 1 ≤ d) (maxim : Bool) :
    ((minimax G b d Score.negInf Score.posInf maxim).2 = none ↔
      G.isGameOver b = true) ∧
    (G.isGameOver b = false →
      ∃ m, m ∈ G.legalMoves b ∧
        (minimax G b d Score.negInf Score.posInf maxim).2 = some m) := by
  obtain ⟨e, rfl⟩ : ∃ e, d = e + 1 := ⟨d - 1, by omega⟩
  constructor
  · constructor
    · intro h
      rcases Bool.eq_false_or_eq_true (G.isGameOver b) with hg | hg
      · exact hg
      · obtain ⟨m, _, hsome⟩ :=
          minimax_move G hC.no_moves_over e b Score.negInf Score.posInf maxim hg
        rw [h] at hsome
        cases hsome
    · intro h
      rw [minimax_base_case G b (e + 1) Score.negInf Score.posInf maxim (Or.inr h)]
  · exact minimax_move G hC.no_moves_over e b Score.negInf Score.posInf maxim

theorem minimax_none_iff_gameover_witness :
    ((minimax TB 0 2 Score.negInf Score.posInf true).2 = none ↔
      TB.isGameOver 0 = true) ∧
    (TB.isGameOver 0 = false →
      ∃ m, m ∈ TB.legalMoves 0 ∧
        (minimax TB 0 2 Score.negInf Score.posInf true).2 = some m) :=
  minimax_none_iff_gameover TB TB_contract 0 2 (by decide) true

/-! ## Pruning never changes the root score (C1)

The proof is the classical fail-soft alpha-beta argument.  `ABApprox α β r t`
records how the windowed result `r` approximates the true minimax value `t`:
a result at or below alpha is an upper bound on the truth, a result at or
above beta is a lower bound, and a result strictly inside the window is
exact.  Both loops preserve this, and at the root the full window forces
exactness. -/

/-- Fail-soft approximation relation between the alpha-beta result `r`
under window `(alpha, beta)` and the unpruned value `t`. -/
def ABApprox (alpha beta r t : Score) : Prop :=
  (r ≤ alpha → t ≤ r) ∧ (beta ≤ r → r ≤ t) ∧ (alpha < r → r < beta → r = t)

theorem le_foldl_max {μ : Type _} (f : μ → Score) :
    ∀ (l : List μ) (acc : Score), acc ≤ l.foldl (fun s m => max s (f m)) acc := by
  intro l
  induction l with
  | nil => intro acc; exact le_refl _
  | cons m rest ih =>
    intro acc
    exact le_trans (le_max_left acc (f m)) (ih (max acc (f m)))

theorem foldl_min_le {μ : Type _} (f : μ → Score) :
    ∀ (l : List μ) (acc : Score), l.foldl (fun s m => min s (f m)) acc ≤ acc := by
  intro l
  induction l with
  | nil => intro acc; exact le_refl _
  | cons m rest ih =>
    intro acc
    exact le_trans (ih (min acc (f m))) (min_le_left acc (f m))

/-- Loop invariant for the maximizing loop: `a` is the running alpha,
`best` the running best score, `tb` the unpruned maximum over the already
processed moves; the loop's final answer fail-soft-approximates the
unpruned maximum over all moves. -/
theorem abMaxLoop_approx {μ : Type _} (cAB : μ → Score → Score) (cT : μ → Score)
    (alpha0 beta : Score)
    (hch : ∀ m a, a < beta → ABApprox a beta (cAB m a) (cT m)) :
    ∀ (l : List μ) (a best tb : Score) (bm : Option μ),
      a < beta → a = max alpha0 best → tb ≤ best → (alpha0 < best → best ≤ tb) →
      ABApprox alpha0 beta (abMaxLoop cAB beta l a best bm).1
        (l.foldl (fun acc m => max acc (cT m)) tb) := by
  intro l
  induction l with
  | nil =>
    intro a best tb bm ha haeq htb hbtb
    simp only [abMaxLoop, List.foldl_nil]
    have hba : best ≤ a := haeq ▸ le_max_right alpha0 best
    exact ⟨fun _ => htb, fun h => absurd (h.trans hba) (not_le.mpr ha),
      fun h1 _ => (le_antisymm htb (hbtb h1)).symm⟩
  | cons m rest ih =>
    intro a best tb bm ha haeq htb hbtb
    have hba : best ≤ a := haeq ▸ le_max_right alpha0 best
    have ha0a : alpha0 ≤ a := haeq ▸ le_max_left alpha0 best
    have hab0 : alpha0 < beta := lt_of_le_of_lt ha0a ha
    obtain ⟨h1, h2, h3⟩ := hch m a ha
    simp only [abMaxLoop, List.foldl_cons]
    set r := cAB m a with hr
    have hupd : (if best < r then r else best) = max best r := by
      rcases le_or_lt r best with h | h
      · rw [if_neg (not_lt.mpr h), max_eq_left h]
      · rw [if_pos h, max_eq_right h.le]
    by_cases hcut : beta ≤ max a r
    · rw [if_pos hcut]
      have hbr : beta ≤ r := by
        rcases le_max_iff.mp hcut with h | h
        · exact absurd h (not_le.mpr ha)
        · exact h
      have hbestr : max best r = r :=
        max_eq_right (hba.trans (ha.le.trans hbr))
      simp only [hupd, hbestr]
      refine ⟨?_, ?_, ?_⟩
      · intro h
        exact absurd (hbr.trans h) (not_le.mpr hab0)
      · intro _
        calc r ≤ cT m := h2 hbr
          _ ≤ max tb (cT m) := le_max_right tb (cT m)
          _ ≤ rest.foldl (fun acc x => max acc (cT x)) (max tb (cT m)) :=
            le_foldl_max cT rest (max tb (cT m))
      · intro _ hlt
        exact absurd hbr (not_le.mpr hlt)
    · rw [if_neg hcut]
      have har : max a r < beta := not_le.mp hcut
      have hrb : r < beta := lt_of_le_of_lt (le_max_right a r) har
      rw [hupd]
      refine ih (max a r) (max best r) (max tb (cT m)) _ har ?_ ?_ ?_
      · rw [haeq, max_assoc]
      · refine max_le (htb.trans (le_max_left best r)) ?_
        rcases le_or_lt r a with hra | hra
        · exact (h1 hra).trans (le_max_right best r)
        · exact (le_of_eq (h3 hra hrb).symm).trans (le_max_right best r)
      · intro hα
        rcases le_or_lt r best with hrb2 | hrb2
        · rw [max_eq_left hrb2] at hα ⊢
          exact (hbtb hα).trans (le_max_left tb (cT m))
        · rw [max_eq_right hrb2.le] at hα ⊢
          have hra : a < r := by
            rcases le_or_lt r a with hle | hlt2
            · exfalso
              rw [haeq] at hle
              rcases le_max_iff.mp hle with h | h
              · exact absurd h (not_le.mpr hα)
              · exact absurd h (not_le.mpr hrb2)
            · exact hlt2
          rw [h3 hra hrb]
          exact le_max_right tb (cT m)

/-- Mirror loop invariant for the minimizing loop. -/
theorem abMinLoop_approx {μ : Type _} (cAB : μ → Score → Score) (cT : μ → Score)
    (alpha0 beta0 : Score)
    (hch : ∀ m b, alpha0 < b → ABApprox alpha0 b (cAB m b) (cT m)) :
    ∀ (l : List μ) (b best tb : Score) (bm : Option μ),
      alpha0 < b → b = min beta0 best → best ≤ tb → (best < beta0 → tb ≤ best) →
      ABApprox alpha0 beta0 (abMinLoop cAB alpha0 l b best bm).1
        (l.foldl (fun acc m => min acc (cT m)) tb) := by
  intro l
  induction l with
  | nil =>
    intro b best tb bm hb hbeq hbesttb hbtb
    simp only [abMinLoop, List.foldl_nil]
    have hbb : b ≤ best := hbeq ▸ min_le_right beta0 best
    exact ⟨fun h => absurd (hbb.trans h) (not_le.mpr hb), fun _ => hbesttb,
      fun _ h2 => le_antisymm hbesttb (hbtb h2)⟩
  | cons m rest ih =>
    intro b best tb bm hb hbeq hbesttb hbtb
    have hbb : b ≤ best := hbeq ▸ min_le_right beta0 best
    have hbβ : b ≤ beta0 := hbeq ▸ min_le_left beta0 best
    have hab0 : alpha0 < beta0 := lt_of_lt_of_le hb hbβ
    obtain ⟨h1, h2, h3⟩ := hch m b hb
    simp only [abMinLoop, List.foldl_cons]
    set r := cAB m b with hr
    have hupd : (if r < best then r else best) = min best r := by
      rcases le_or_lt best r with h | h
      · rw [if_neg (not_lt.mpr h), min_eq_left h]
      · rw [if_pos h, min_eq_right h.le]
    by_cases hcut : min b r ≤ alpha0
    · rw [if_pos hcut]
      have hra : r ≤ alpha0 := by
        rcases min_le_iff.mp hcut with h | h
        · exact absurd h (not_le.mpr hb)
        · exact h
      have hminr : min best r = r :=
        min_eq_right ((hra.trans hb.le).trans hbb)
      simp only [hupd, hminr]
      refine ⟨?_, ?_, ?_⟩
      · intro _
        calc rest.foldl (fun acc x => min acc (cT x)) (min tb (cT m))
            ≤ min tb (cT m) := foldl_min_le cT rest (min tb (cT m))
          _ ≤ cT m := min_le_right tb (cT m)
          _ ≤ r := h1 hra
      · intro h
        exact absurd (h.trans hra) (not_le.mpr hab0)
      · intro hlt _
        exact absurd hra (not_le.mpr hlt)
    · rw [if_neg hcut]
      have har : alpha0 < min b r := not_le.mp hcut
      have halr : alpha0 < r := lt_of_lt_of_le har (min_le_right b r)
      rw [hupd]
      refine ih (min b r) (min best r) (min tb (cT m)) _ har ?_ ?_ ?_
      · rw [hbeq, min_assoc]
      · refine le_min ((min_le_left best r).trans hbesttb) ?_
        rcases le_or_lt b r with hbr | hbr
        · exact (min_le_right best r).trans (h2 hbr)
        · rw [← h3 halr hbr]
          exact min_le_right best r
      · intro hβ
        rcases le_or_lt best r with hbr2 | hbr2
        · rw [min_eq_left hbr2] at hβ ⊢
          exact (min_le_left tb (cT m)).trans (hbtb hβ)
        · rw [min_eq_right hbr2.le] at hβ ⊢
          have hrb : r < b := by
            rcases le_or_lt b r with hle | hlt2
            · exfalso
              rw [hbeq] at hle
              rcases min_le_iff.mp hle with h | h
              · exact absurd h (not_le.mpr hβ)
              · exact absurd h (not_le.mpr hbr2)
            · exact hlt2
          rw [← h3 halr hrb]
          exact min_le_right tb r

/-- At every node the alpha-beta result fail-soft-approximates the
unpruned value. -/
theorem minimax_approx (G : Game) :
    ∀ (d : Nat) (b : G.Board) (alpha beta : Score) (maxim : Bool), alpha < beta →
      ABApprox alpha beta (minimax G b d alpha beta maxim).1
        (minimax_full G b d maxim) := by
  intro d
  induction d with
  | zero =>
    intro b alpha beta maxim _
    exact ⟨fun _ => le_refl _, fun _ => le_refl _, fun _ _ => rfl⟩
  | succ d ih =>
    intro b alpha beta maxim hab
    by_cases hg : G.isGameOver b
    · simp only [minimax, minimax_full, hg, if_true]
      exact ⟨fun _ => le_refl _, fun _ => le_refl _, fun _ _ => rfl⟩
    · cases maxim with
      | true =>
        simp only [minimax, minimax_full, hg, Bool.false_eq_true, if_false, if_true]
        exact abMaxLoop_approx
          (fun move a => (minimax G (G.push b move) d a beta false).1)
          (fun move => minimax_full G (G.push b move) d false) alpha beta
          (fun m a haB => ih (G.push b m) a beta false haB)
          (G.legalMoves b) alpha Score.negInf Score.negInf none hab
          (max_eq_left (Score.negInf_le alpha)).symm
          (le_refl _)
          (fun h => absurd h (not_lt.mpr (Score.negInf_le alpha)))
      | false =>
        simp only [minimax, minimax_full, hg, Bool.false_eq_true, if_false, if_true]
        exact abMinLoop_approx
          (fun move bb => (minimax G (G.push b move) d alpha bb true).1)
          (fun move => minimax_full G (G.push b move) d true) alpha beta
          (fun m bb hbB => ih (G.push b m) alpha bb true hbB)
          (G.legalMoves b) beta Score.posInf Score.posInf none hab
          (min_eq_left (Score.le_posInf beta)).symm
          (le_refl _)
          (fun h => absurd h (not_lt.mpr (Score.le_posInf beta)))

/-- Claim C1: for every position, depth and maximizing flag, alpha-beta search
over the full window `(-∞, +∞)` returns the same score as the unpruned
full minimax at the same depth — cutoffs change which nodes are visited,
never the root score. -/
theorem minimax_alphabeta_eq_full (G : Game) (b : G.Board) (d : Nat) (maxim : Bool) :
    (minimax G b d Score.negInf Score.posInf maxim).1 = minimax_full G b d maxim := by
  obtain ⟨h1, h2, h3⟩ :=
    minimax_approx G d b Score.negInf Score.posInf maxim Score.negInf_lt_posInf
  rcases hr : (minimax G b d Score.negInf Score.posInf maxim).1 with _ | n | _
  · rw [hr] at h1
    have ht := h1 (le_refl _)
    rw [Score.le_negInf_iff] at ht
    exact ht.symm
  · rw [hr] at h3
    exact h3 (Score.negInf_lt_fin n) (Score.fin_lt_posInf n)
  · rw [hr] at h2
    have ht := h2 (le_refl _)
    rw [Score.posInf_le_iff] at ht
    exact ht.symm
